import Mathlib

/-!
Verification of the `obsidian-oos-picbed` plugin (`src/main.ts`).

The development is a shallow embedding of the plugin's core logic:
strings are `List Char`, JavaScript string primitives (`split`,
`indexOf`, `replace`, `matchAll`, `encodeURIComponent`,
`decodeURIComponent`, `new URL`) are modelled as executable Lean
functions, asynchronous flows are modelled by passing the document
content that is current at each step, and fallible operations return
`Option`/`Except`.  JavaScript falsiness of a string corresponds to the
string being empty (`[]`).
-/

/-! ## Settings and the storage client (`OssPicbedSettings`, `OssUploader`) -/

/-- The plugin's persisted settings (`OssPicbedSettings` in `src/main.ts`).
The source field `prefix` is renamed to `prefixField` because `prefix` is a
reserved word in Lean. -/
structure OssPicbedSettings where
  accessKeyId : List Char
  accessKeySecret : List Char
  bucket : List Char
  region : List Char
  prefixField : List Char
  usePublicUrl : Bool
deriving DecidableEq

/-- The network client configuration handed to `new OSS({...})` in the
`OssUploader` constructor.  Constructing a value of this type models
allocating the network client. -/
structure OssClient where
  accessKeyId : List Char
  accessKeySecret : List Char
  bucket : List Char
  region : List Char
  secure : Bool
deriving DecidableEq

/-- `OssUploader.validateSettings`: throws when the access key pair or the
bucket/region pair has an empty component (JS falsiness of a string is
emptiness). -/
def validateSettings (s : OssPicbedSettings) : Except (List Char) Unit :=
  if s.accessKeyId = [] ∨ s.accessKeySecret = [] then
    Except.error ("Access Key ID or Access Key Secret is empty".toList)
  else if s.bucket = [] ∨ s.region = [] then
    Except.error ("Bucket or Region is empty".toList)
  else
    Except.ok ()

/-- The client value produced by the `new OSS({...})` call in the
`OssUploader` constructor. -/
def mkOssClient (s : OssPicbedSettings) : OssClient :=
  { accessKeyId := s.accessKeyId
    accessKeySecret := s.accessKeySecret
    bucket := s.bucket
    region := s.region
    secure := true }

/-- The `OssUploader` constructor: `validateSettings` runs first; the network
client is only created after validation succeeds.  A thrown validation error
becomes `Except.error`, in which case no `OssClient` value exists. -/
def ossUploaderNew (s : OssPicbedSettings) : Except (List Char) OssClient :=
  match validateSettings s with
  | Except.error e => Except.error e
  | Except.ok _ => Except.ok (mkOssClient s)

/-- The guard tested by `initUploader`: all four required fields truthy. -/
def requiredFieldsPresent (s : OssPicbedSettings) : Bool :=
  !s.accessKeyId.isEmpty && !s.accessKeySecret.isEmpty &&
    !s.bucket.isEmpty && !s.region.isEmpty

/-! ## Plugin controller state (`OssPicbedPlugin`) -/

/-- The part of the plugin controller state the claims are about: the
nullable `uploader` reference. -/
structure PluginState where
  uploader : Option OssClient
deriving DecidableEq

/-- `OssPicbedPlugin.initUploader`: only when all four required fields are
non-empty does it (re)construct the uploader, nulling it on a constructor
throw; otherwise the statement is skipped and the previous state survives. -/
def initUploader (st : PluginState) (s : OssPicbedSettings) : PluginState :=
  if requiredFieldsPresent s then
    match ossUploaderNew s with
    | Except.ok u => { uploader := some u }
    | Except.error _ => { uploader := none }
  else
    st

/-- `OssPicbedPlugin.onunload`: the uploader reference is nulled. -/
def onunloadStep (_st : PluginState) : PluginState :=
  { uploader := none }

/-! ## File-name generation (`generateFileName`) -/

/-- `String.prototype.split` with a single-character separator described by
the predicate `p`; `"".split(sep)` is `[""]`. -/
def splitP (p : Char → Bool) : List Char → List (List Char)
  | [] => [[]]
  | c :: rest =>
    if p c then [] :: splitP p rest
    else
      match splitP p rest with
      | s :: ss => (c :: s) :: ss
      | [] => [[c]]

/-- The decimal rendering of a JavaScript number holding a Nat
(`${Date.now()}`-style template interpolation). -/
def natChars (n : Nat) : List Char := Nat.toDigits 10 n

/-- The extension computed by `generateFileName`:
`file.name.split(".").pop() || ""`. -/
def extensionOf (name : List Char) : List Char :=
  ((splitP (fun c => c = '.') name).getLast?).getD []

/-- `OssUploader.generateFileName` at upload time `t` (`Date.now()`):
`extension ? T.extension : T`. -/
def generateFileName (name : List Char) (t : Nat) : List Char :=
  if extensionOf name = [] then natChars t
  else natChars t ++ '.' :: extensionOf name

/-- `OssUploader.getPrefix`: the configured prefix with leading and trailing
slash runs stripped (`replace(/^\/+|\/+$/g, "")`), then a trailing `/` added
when non-empty. -/
def getPrefixNormalized (s : OssPicbedSettings) : List Char :=
  let p := ((s.prefixField.dropWhile (fun c => c = '/')).reverse.dropWhile
    (fun c => c = '/')).reverse
  if p = [] then [] else p ++ ['/']

/-- The storage key generated by `OssUploader.upload` for a file named
`name` at time `t`. -/
def uploadKey (s : OssPicbedSettings) (name : List Char) (t : Nat) : List Char :=
  getPrefixNormalized s ++ generateFileName name t

/-- `OssPicbedPlugin.generateUploadToken` at time `t` with random suffix
`suffix` (`Math.random().toString(36).slice(2, 8)`). -/
def generateUploadToken (t : Nat) (suffix : List Char) : List Char :=
  "\x7b\x7bOSS_UPLOADING:".toList ++ natChars t ++ '-' :: suffix ++ "\x7d\x7d".toList

/-! ## String search primitives (`indexOf`, `includes`, `replace` with a
string pattern) -/

/-- `String.prototype.indexOf`: the least index at which `pat` occurs as a
contiguous substring, `none` when absent (JS `-1`). -/
def strIndexOf (pat : List Char) : List Char → Option Nat
  | [] => if pat = [] then some 0 else none
  | c :: rest =>
    if (c :: rest).take pat.length = pat then some 0
    else (strIndexOf pat rest).map (fun i => i + 1)

/-- `String.prototype.replace` with a string pattern: the first occurrence of
`pat` is replaced by `rep`; absent a match the string is unchanged. -/
def replaceFirstStr (cs pat rep : List Char) : List Char :=
  match strIndexOf pat cs with
  | some i => cs.take i ++ rep ++ cs.drop (i + pat.length)
  | none => cs

/-- The markdown image reference `![](<url>)` inserted on upload success. -/
def imageMarkdown (url : List Char) : List Char :=
  "![](".toList ++ url ++ ")".toList

/-- `OssPicbedPlugin.replaceTokenWithImage` restricted to the document text:
re-reads the current content, finds the token by `indexOf`, and replaces
exactly that character span with the markdown reference (no-op when the
token is gone). -/
def replaceTokenWithImage (content tok url : List Char) : List Char :=
  match strIndexOf tok content with
  | none => content
  | some i => content.take i ++ imageMarkdown url ++ content.drop (i + tok.length)

/-- `OssPicbedPlugin.removeToken` restricted to the document text: re-reads
the current content; when it `includes` the token, `replace(token, "")`
removes the first occurrence of the token's text. -/
def removeToken (content tok : List Char) : List Char :=
  if (strIndexOf tok content).isSome then replaceFirstStr content tok []
  else content

/-! ## Markdown image regex `/!\[.*?\]\((.*?)\)/` -/

/-- Characters matched by an (unflagged) JavaScript regex `.`: everything but
line terminators. -/
def isDotChar (c : Char) : Bool :=
  !(c.toNat = 10 || c.toNat = 13 || c.toNat = 0x2028 || c.toNat = 0x2029)

/-- The lazy `(.*?)\)` part: the shortest run of non-terminator characters
followed by `)`; returns the run's length. -/
def lazyUrl : List Char → Option Nat
  | [] => none
  | c :: rest =>
    if c = ')' then some 0
    else if isDotChar c then (lazyUrl rest).map (fun e => e + 1)
    else none

/-- Attempt to match `\]\((.*?)\)` exactly at the current position; returns
the consumed length and the captured URL. -/
def tryCloseImage : List Char → Option (Nat × List Char)
  | ']' :: '(' :: r => (lazyUrl r).map (fun e => (2 + e + 1, r.take e))
  | _ => none

/-- The lazy `.*?\]\((.*?)\)` tail with backtracking: at each offset first try
to complete the match, otherwise let `.*?` consume one more non-terminator
character. -/
def lazyImageTail : List Char → Option (Nat × List Char)
  | [] => none
  | c :: rest =>
    match tryCloseImage (c :: rest) with
    | some p => some p
    | none =>
      if isDotChar c then (lazyImageTail rest).map (fun p => (p.1 + 1, p.2))
      else none

/-- A match of `IMAGE_MARKDOWN_REGEX` anchored at the current position:
total match length and the captured URL. -/
def matchImageAt : List Char → Option (Nat × List Char)
  | '!' :: '[' :: rest => (lazyImageTail rest).map (fun p => (2 + p.1, p.2))
  | _ => none

/-- The leftmost match of the image regex: `(start, length)`. -/
def findFirstImage : List Char → Option (Nat × Nat)
  | [] => none
  | c :: rest =>
    match matchImageAt (c :: rest) with
    | some (len, _) => some (0, len)
    | none => (findFirstImage rest).map (fun p => (p.1 + 1, p.2))

/-- Fuelled worker for `content.replace(IMAGE_MARKDOWN_REGEX, "")`: a global
regex replace deletes each leftmost match and resumes after it.  Every step
consumes at least one character, so fuel equal to the length is exact. -/
def stripAllAux : Nat → List Char → List Char
  | _, [] => []
  | 0, c :: rest => c :: rest
  | fuel + 1, c :: rest =>
    match matchImageAt (c :: rest) with
    | some (len, _) => stripAllAux fuel ((c :: rest).drop len)
    | none => c :: stripAllAux fuel rest

/-- `content.replace(IMAGE_MARKDOWN_REGEX, "")`. -/
def stripAllImages (cs : List Char) : List Char := stripAllAux cs.length cs

/-- Fuelled worker for `content.matchAll(IMAGE_MARKDOWN_REGEX)`: the captured
URLs of the successive non-overlapping leftmost matches. -/
def collectAux : Nat → List Char → List (List Char)
  | _, [] => []
  | 0, _ :: _ => []
  | fuel + 1, c :: rest =>
    match matchImageAt (c :: rest) with
    | some (len, url) => url :: collectAux fuel ((c :: rest).drop len)
    | none => collectAux fuel rest

/-- The captured URLs of `[...content.matchAll(IMAGE_MARKDOWN_REGEX)]`. -/
def collectImages (cs : List Char) : List (List Char) := collectAux cs.length cs

/-! ## Pasted-image cleanup regex
`/!\[\[Pasted image.*?\.(?:png|jpe?g|gif|webp|svg)\]\]/gi` -/

/-- Case-insensitive character comparison (the regex `i` flag). -/
def charLowerEq (a b : Char) : Bool := a.toLower = b.toLower

/-- Case-insensitive "text starts with pattern". -/
def startsWithCI : List Char → List Char → Bool
  | [], _ => true
  | _ :: _, [] => false
  | p :: ps, c :: cs => charLowerEq p c && startsWithCI ps cs

/-- The extension alternation `(?:png|jpe?g|gif|webp|svg)` in the order the
backtracking engine tries the branches (`e?` is greedy). -/
def pastedExtensions : List (List Char) :=
  ["png".toList, "jpeg".toList, "jpg".toList, "gif".toList, "webp".toList, "svg".toList]

/-- Attempt to match `\.(?:png|jpe?g|gif|webp|svg)\]\]` exactly here;
returns the consumed length. -/
def matchPastedTail : List Char → Option Nat
  | '.' :: rest =>
    pastedExtensions.findSome? fun ext =>
      if startsWithCI ext rest && (rest.drop ext.length).take 2 = [']', ']'] then
        some (1 + ext.length + 2)
      else none
  | _ => none

/-- The lazy `.*?` scan of the pasted-image regex with backtracking. -/
def lazyPasted : List Char → Option Nat
  | [] => none
  | c :: rest =>
    match matchPastedTail (c :: rest) with
    | some k => some k
    | none =>
      if isDotChar c then (lazyPasted rest).map (fun k => k + 1)
      else none

/-- The literal head `![[Pasted image` of `PASTED_IMAGE_REGEX`. -/
def pastedHead : List Char := "![[Pasted image".toList

/-- A match of `PASTED_IMAGE_REGEX` anchored at the current position. -/
def matchPastedAt (cs : List Char) : Option Nat :=
  if startsWithCI pastedHead cs then
    (lazyPasted (cs.drop pastedHead.length)).map (fun k => pastedHead.length + k)
  else none

/-- Leftmost match of the pasted-image regex: `(start, length)`. -/
def findPasted : List Char → Option (Nat × Nat)
  | [] => none
  | c :: rest =>
    match matchPastedAt (c :: rest) with
    | some len => some (0, len)
    | none => (findPasted rest).map (fun p => (p.1 + 1, p.2))

/-- Fuelled worker for `cleanupPastedImages`: the `while exec` loop removes
the leftmost match, re-reads the document, resets `lastIndex` and re-scans
until no match remains. -/
def cleanupAux : Nat → List Char → List Char
  | 0, cs => cs
  | fuel + 1, cs =>
    match findPasted cs with
    | some (i, len) => cleanupAux fuel (cs.take i ++ cs.drop (i + len))
    | none => cs

/-- `OssPicbedPlugin.cleanupPastedImages` restricted to the document text. -/
def cleanupPastedImages (cs : List Char) : List Char := cleanupAux cs.length cs

/-! ## Upload settlement (`handleImageUpload` after the awaited `upload`) -/

/-- A document/notification pair produced by a settled coordinator action. -/
structure SettleResult where
  doc : List Char
  notice : List Char
deriving DecidableEq

/-- Notification text on upload success. -/
def noticeUploadSuccess : List Char := "Image uploaded successfully".toList

/-- Notification text on upload failure with the underlying message. -/
def noticeUploadFailed (err : List Char) : List Char :=
  "Upload failed: ".toList ++ err

/-- The success branch of `handleImageUpload`: replace the token in the
settlement-time document, run the cleanup pass, notify success. -/
def handleUploadSuccess (docAtSettle tok url : List Char) : SettleResult :=
  { doc := cleanupPastedImages (replaceTokenWithImage docAtSettle tok url)
    notice := noticeUploadSuccess }

/-- The catch branch of `handleImageUpload`: remove the token from the
settlement-time document, notify failure. -/
def handleUploadFailure (docAtSettle tok err : List Char) : SettleResult :=
  { doc := removeToken docAtSettle tok
    notice := noticeUploadFailed err }

/-- One settled upload after the token was inserted: the document may be
edited arbitrarily (`editDuringWait`) while `upload` is awaited, and the
settlement branches read the document that is current at settlement time. -/
def handleUploadSettle (docAfterInsert : List Char)
    (editDuringWait : List Char → List Char) (tok : List Char)
    (outcome : Except (List Char) (List Char)) : SettleResult :=
  match outcome with
  | Except.ok url => handleUploadSuccess (editDuringWait docAfterInsert) tok url
  | Except.error e => handleUploadFailure (editDuringWait docAfterInsert) tok e

/-! ## Percent-encoding (`encodeURIComponent` / `decodeURIComponent`) -/

/-- Characters `encodeURIComponent` leaves unescaped: ASCII alphanumerics
(code points 48-57, 65-90, 97-122) and `- _ . ! ~ * ' ( )` (code points
45, 95, 46, 33, 126, 42, 39, 40, 41). -/
def isUnres (c : Char) : Bool :=
  (48 ≤ c.toNat ∧ c.toNat ≤ 57) || (65 ≤ c.toNat ∧ c.toNat ≤ 90) ||
    (97 ≤ c.toNat ∧ c.toNat ≤ 122) ||
    (c.toNat = 45 ∨ c.toNat = 95 ∨ c.toNat = 46 ∨ c.toNat = 33 ∨
      c.toNat = 126 ∨ c.toNat = 42 ∨ c.toNat = 39 ∨ c.toNat = 40 ∨
      c.toNat = 41)

/-- Uppercase hexadecimal digit, as emitted by `encodeURIComponent`. -/
def hexDigitChar (n : Nat) : Char := "0123456789ABCDEF".toList.getD n '0'

/-- One byte as a percent escape `%HH`. -/
def byteToPct (b : Nat) : List Char := ['%', hexDigitChar (b / 16), hexDigitChar (b % 16)]

/-- The UTF-8 bytes of a code point. -/
def utf8Bytes (n : Nat) : List Nat :=
  if n < 0x80 then [n]
  else if n < 0x800 then [0xC0 + n / 64, 0x80 + n % 64]
  else if n < 0x10000 then [0xE0 + n / 4096, 0x80 + (n / 64) % 64, 0x80 + n % 64]
  else [0xF0 + n / 262144, 0x80 + (n / 4096) % 64, 0x80 + (n / 64) % 64, 0x80 + n % 64]

/-- `encodeURIComponent` on a single code point. -/
def pctEncodeChar (c : Char) : List Char :=
  if isUnres c then [c] else (utf8Bytes c.toNat).flatMap byteToPct

/-- The JavaScript builtin `encodeURIComponent`. -/
def encodeURIComponent (s : List Char) : List Char := s.flatMap pctEncodeChar

/-- Hex digit value, both cases accepted (as `decodeURIComponent` does). -/
def hexVal (c : Char) : Option Nat :=
  if 48 ≤ c.toNat ∧ c.toNat ≤ 57 then some (c.toNat - 48)
  else if 65 ≤ c.toNat ∧ c.toNat ≤ 70 then some (c.toNat - 55)
  else if 97 ≤ c.toNat ∧ c.toNat ≤ 102 then some (c.toNat - 87)
  else none

/-- Parse one full percent-escape cluster (1-4 `%HH` groups forming one
UTF-8-encoded code point) at the head of the input, rejecting malformed hex,
truncated sequences, stray continuation bytes, overlong encodings,
surrogates and out-of-range code points — the cases where
`decodeURIComponent` throws `URIError`. -/
def decodeEscape : List Char → Option (Char × List Char)
  | '%' :: h1 :: h2 :: rest =>
    match hexVal h1, hexVal h2 with
    | some a, some b =>
      if a * 16 + b < 0x80 then some (Char.ofNat (a * 16 + b), rest)
      else if a * 16 + b < 0xC0 then none
      else if a * 16 + b < 0xE0 then
        match rest with
        | '%' :: h3 :: h4 :: rest2 =>
          match hexVal h3, hexVal h4 with
          | some a3, some b3 =>
            if 0x80 ≤ a3 * 16 + b3 ∧ a3 * 16 + b3 < 0xC0 then
              if 0x80 ≤ (a * 16 + b - 0xC0) * 64 + (a3 * 16 + b3 - 0x80) then
                some (Char.ofNat ((a * 16 + b - 0xC0) * 64 + (a3 * 16 + b3 - 0x80)),
                  rest2)
              else none
            else none
          | _, _ => none
        | _ => none
      else if a * 16 + b < 0xF0 then
        match rest with
        | '%' :: h3 :: h4 :: '%' :: h5 :: h6 :: rest2 =>
          match hexVal h3, hexVal h4, hexVal h5, hexVal h6 with
          | some a3, some b3, some a5, some b5 =>
            if (0x80 ≤ a3 * 16 + b3 ∧ a3 * 16 + b3 < 0xC0) ∧
                (0x80 ≤ a5 * 16 + b5 ∧ a5 * 16 + b5 < 0xC0) then
              if 0x800 ≤ (a * 16 + b - 0xE0) * 4096 + (a3 * 16 + b3 - 0x80) * 64 +
                    (a5 * 16 + b5 - 0x80) ∧
                  ¬(0xD800 ≤ (a * 16 + b - 0xE0) * 4096 + (a3 * 16 + b3 - 0x80) * 64 +
                      (a5 * 16 + b5 - 0x80) ∧
                    (a * 16 + b - 0xE0) * 4096 + (a3 * 16 + b3 - 0x80) * 64 +
                      (a5 * 16 + b5 - 0x80) < 0xE000) then
                some (Char.ofNat ((a * 16 + b - 0xE0) * 4096 +
                  (a3 * 16 + b3 - 0x80) * 64 + (a5 * 16 + b5 - 0x80)), rest2)
              else none
            else none
          | _, _, _, _ => none
        | _ => none
      else if a * 16 + b < 0xF8 then
        match rest with
        | '%' :: h3 :: h4 :: '%' :: h5 :: h6 :: '%' :: h7 :: h8 :: rest2 =>
          match hexVal h3, hexVal h4, hexVal h5, hexVal h6, hexVal h7, hexVal h8 with
          | some a3, some b3, some a5, some b5, some a7, some b7 =>
            if (0x80 ≤ a3 * 16 + b3 ∧ a3 * 16 + b3 < 0xC0) ∧
                (0x80 ≤ a5 * 16 + b5 ∧ a5 * 16 + b5 < 0xC0) ∧
                (0x80 ≤ a7 * 16 + b7 ∧ a7 * 16 + b7 < 0xC0) then
              if 0x10000 ≤ (a * 16 + b - 0xF0) * 262144 +
                    (a3 * 16 + b3 - 0x80) * 4096 + (a5 * 16 + b5 - 0x80) * 64 +
                    (a7 * 16 + b7 - 0x80) ∧
                  (a * 16 + b - 0xF0) * 262144 + (a3 * 16 + b3 - 0x80) * 4096 +
                    (a5 * 16 + b5 - 0x80) * 64 + (a7 * 16 + b7 - 0x80) < 0x110000 then
                some (Char.ofNat ((a * 16 + b - 0xF0) * 262144 +
                  (a3 * 16 + b3 - 0x80) * 4096 + (a5 * 16 + b5 - 0x80) * 64 +
                  (a7 * 16 + b7 - 0x80)), rest2)
              else none
            else none
          | _, _, _, _, _, _ => none
        | _ => none
      else none
    | _, _ => none
  | _ => none

/-- Fuelled worker for `decodeURIComponent`; every step consumes at least one
input character, so fuel equal to the length is exact. -/
def decodeAux : Nat → List Char → Option (List Char)
  | _, [] => some []
  | 0, _ :: _ => none
  | fuel + 1, c :: rest =>
    if c = '%' then
      match decodeEscape (c :: rest) with
      | some (ch, r) => (decodeAux fuel r).map (fun t => ch :: t)
      | none => none
    else (decodeAux fuel rest).map (fun t => c :: t)

/-- The JavaScript builtin `decodeURIComponent`; `none` models a thrown
`URIError`. -/
def decodeURIComponent (cs : List Char) : Option (List Char) :=
  decodeAux cs.length cs

/-! ## URL construction and parsing (`getUrl`, `new URL`) -/

/-- `Array.prototype.join` with separator `sep`. -/
def joinSep (sep : List Char) : List (List Char) → List Char
  | [] => []
  | [x] => x
  | x :: y :: rest => x ++ sep ++ joinSep sep (y :: rest)

/-- The host part of the public URL built by `getUrl`:
`${bucket}.${region}.aliyuncs.com`. -/
def aliyunHost (s : OssPicbedSettings) : List Char :=
  s.bucket ++ '.' :: s.region ++ ".aliyuncs.com".toList

/-- The public branch of `OssUploader.getUrl`:
`https://<host>/<key.split("/").map(encodeURIComponent).join("/")>`. -/
def getPublicUrl (s : OssPicbedSettings) (key : List Char) : List Char :=
  "https://".toList ++ aliyunHost s ++
    '/' :: joinSep ['/'] ((splitP (fun c => c = '/') key).map encodeURIComponent)

/-- `OssUploader.getUrl`: public concatenation when `usePublicUrl`, otherwise
the client's one-hour signature URL, supplied here as an oracle since it is
computed by the `ali-oss` library. -/
def getUrl (s : OssPicbedSettings) (signedUrl : List Char → List Char)
    (key : List Char) : List Char :=
  if s.usePublicUrl then getPublicUrl s key else signedUrl key

/-- Scheme tail: after the first letter, scheme characters up to `://`. -/
def schemeRest : List Char → Option (List Char)
  | ':' :: '/' :: '/' :: rest => some rest
  | c :: rest =>
    if c.isAlphanum || ['+', '-', '.'].contains c then schemeRest rest else none
  | [] => none

/-- Split `scheme://rest`, requiring a leading letter.  URLs without the
`://` authority form are treated as unparsable here; for the inputs arising
in this plugin (absolute `https` object URLs vs. plain strings) this agrees
with `new URL` succeeding or throwing. -/
def schemeSplit : List Char → Option (List Char)
  | c :: rest => if c.isAlpha then schemeRest rest else none
  | [] => none

/-- Characters ending the authority of a special-scheme URL:
`/ \ ? #` (code points 47, 92, 63, 35). -/
def isAuthorityEnd (c : Char) : Bool :=
  c.toNat = 47 || c.toNat = 92 || c.toNat = 63 || c.toNat = 35

/-- Characters ending the path: `?` and `#` (code points 63, 35). -/
def isPathEnd (c : Char) : Bool := c.toNat = 63 || c.toNat = 35

/-- Path-segment separators of a special-scheme URL: `/` and `\`
(code points 47, 92). -/
def isPathSep (c : Char) : Bool := c.toNat = 47 || c.toNat = 92

/-- A conservative class of characters that pass through WHATWG host parsing
unchanged: ASCII alphanumerics plus `- _ .` (code points 45, 95, 46). -/
def isHostSafe (c : Char) : Bool :=
  (48 ≤ c.toNat ∧ c.toNat ≤ 57) || (65 ≤ c.toNat ∧ c.toNat ≤ 90) ||
    (97 ≤ c.toNat ∧ c.toNat ≤ 122) ||
    (c.toNat = 45 ∨ c.toNat = 95 ∨ c.toNat = 46)

/-- WHATWG dot-segment normalization over the parsed segments: `..` pops the
previous segment, `.` is dropped, and either as the final segment leaves a
trailing empty segment.  (The percent-encoded `%2e` spellings of dot
segments are not modelled; no input in this development produces them.) -/
def normSegs : List (List Char) → List (List Char) → List (List Char)
  | acc, [] => acc.reverse
  | acc, s :: rest =>
    if s = ['.', '.'] then
      match rest with
      | [] => (([] : List Char) :: acc.tail).reverse
      | _ => normSegs acc.tail rest
    else if s = ['.'] then
      match rest with
      | [] => (([] : List Char) :: acc).reverse
      | _ => normSegs acc rest
    else normSegs (s :: acc) rest

/-- Port validity: after the last `@` of the authority, at most one `:`
followed only by digits (value-range checking is not modelled). -/
def portDigitsOk (hostPort : List Char) : Bool :=
  match splitP (fun c => c = ':') hostPort with
  | [_] => true
  | [_, port] => port.all Char.isDigit
  | _ => false

/-- The `pathname` computed from everything after the authority. -/
def pathnameOf (after : List Char) : List Char :=
  match after with
  | [] => ['/']
  | c :: rest =>
    if isPathEnd c then ['/']
    else
      '/' :: joinSep ['/']
        (normSegs [] (splitP isPathSep (rest.takeWhile (fun d => !(isPathEnd d)))))

/-- The `pathname` of `new URL(url)`, `none` when construction throws.
Modelled for absolute URLs in authority (`scheme://`) form: authority up to
the first `/ \ ? #`, non-empty host, digit-only port, and a path with `\`
treated as `/` and dot segments normalized. -/
def urlPathname (url : List Char) : Option (List Char) :=
  match schemeSplit url with
  | none => none
  | some rest =>
    let auth := rest.takeWhile (fun c => !(isAuthorityEnd c))
    if auth = [] then none
    else if portDigitsOk (((splitP (fun c => c = '@') auth).getLast?).getD []) then
      some (pathnameOf (rest.dropWhile (fun c => !(isAuthorityEnd c))))
    else none

/-- `OssUploader.parseKeyFromUrl`: empty in, empty out; on a parsable URL the
percent-decoded pathname with leading slashes stripped; when `new URL` or
`decodeURIComponent` throws, the raw string with leading slashes stripped. -/
def parseKeyFromUrl (url : List Char) : List Char :=
  if url = [] then []
  else
    match urlPathname url with
    | some pathname =>
      match decodeURIComponent (pathname.dropWhile (fun c => c = '/')) with
      | some k => k
      | none => url.dropWhile (fun c => c = '/')
    | none => url.dropWhile (fun c => c = '/')

/-! ## Deletion coordinator (`deleteImage`, `deleteAllImages`) -/

/-- Notification when `deleteAllImages` finds no references. -/
def noticeNoImages : List Char := "No images found".toList

/-- Notification `Deleted ${keys.length} image(s)`. -/
def deletedNotice (n : Nat) : List Char :=
  "Deleted ".toList ++ natChars n ++ " image(s)".toList

/-- Notification when a single delete gets an unparsable URL. -/
def noticeInvalidUrl : List Char := "Invalid image URL".toList

/-- Notification on single-delete success. -/
def noticeDeleteSuccess : List Char := "Image deleted successfully".toList

/-- Notification on single-delete failure with the underlying message. -/
def noticeDeleteFailed (err : List Char) : List Char :=
  "Delete failed: ".toList ++ err

/-- Outcome of one `deleteAllImages` invocation over the document text
`content` read at entry.  `attempts` records, in order, each storage key a
remote delete was issued for together with that delete's remote outcome
(`del`); a failed delete is only logged (`.catch(console.error)`), so the
fan-out is joined by an all-settled barrier, never aborted. -/
structure DeleteAllResult where
  finalDoc : List Char
  notice : List Char
  attempts : List (List Char × Bool)
deriving DecidableEq

/-- `OssPicbedPlugin.deleteAllImages`: match all references in the entry
snapshot, resolve keys, drop falsy keys, fire all deletes, then overwrite
the document with the snapshot stripped of every match and report
`keys.length`. -/
def deleteAllImages (content : List Char) (del : List Char → Bool) : DeleteAllResult :=
  let urls := collectImages content
  if urls = [] then
    { finalDoc := content, notice := noticeNoImages, attempts := [] }
  else
    let keys := (urls.map parseKeyFromUrl).filter (fun k => !k.isEmpty)
    { finalDoc := stripAllImages content
      notice := deletedNotice keys.length
      attempts := keys.map (fun k => (k, del k)) }

/-- The document content when one `deleteAllImages` invocation has finished,
starting from `docAtInvoke`, with `editDuringWait` the edits applied while
the deletes are awaited.  The final `setValue` writes the stripped entry
snapshot, so the document state reached during the wait is discarded; when
no reference matches there is no suspension and the document is untouched. -/
def deleteAllFinalDoc (docAtInvoke : List Char)
    (editDuringWait : List Char → List Char) (del : List Char → Bool) : List Char :=
  if collectImages docAtInvoke = [] then docAtInvoke
  else
    let _docDuringWait := editDuringWait docAtInvoke
    (deleteAllImages docAtInvoke del).finalDoc

/-- `line.replace(/!\[.*?\]\(.*?\)/, "")`: the first image-reference match on
the line removed, the rest preserved. -/
def lineStripFirstImage (line : List Char) : List Char :=
  match findFirstImage line with
  | some (i, len) => line.take i ++ line.drop (i + len)
  | none => line

/-- `OssPicbedPlugin.deleteImage` over a document given as its list of lines:
resolve the key (falsy key → "Invalid image URL", no mutation); await the
remote delete whose outcome is `delOutcome` — a throw is caught with the
document untouched; only on success is the line rewritten via `setLine`. -/
def deleteImage (docLines : List (List Char)) (lineNumber : Nat) (url : List Char)
    (delOutcome : Except (List Char) Unit) : List (List Char) × List Char :=
  let key := parseKeyFromUrl url
  if key = [] then (docLines, noticeInvalidUrl)
  else
    match delOutcome with
    | Except.error e => (docLines, noticeDeleteFailed e)
    | Except.ok _ =>
      let line := docLines.getD lineNumber []
      (docLines.set lineNumber (lineStripFirstImage line), noticeDeleteSuccess)

/-! # Theorems -/

/-! ## Claim C3: storage-client construction -/

/-- C3: Storage Client construction succeeds exactly when `accessKeyId`,
`accessKeySecret`, `bucket` and `region` are all non-empty; with any of the
four empty it fails with the validation error and no client value is
produced, validation running before client creation. -/
theorem c3_construction_validation (s : OssPicbedSettings) :
    ((s.accessKeyId ≠ [] ∧ s.accessKeySecret ≠ [] ∧ s.bucket ≠ [] ∧ s.region ≠ []) →
      ossUploaderNew s = Except.ok (mkOssClient s)) ∧
    ((s.accessKeyId = [] ∨ s.accessKeySecret = [] ∨ s.bucket = [] ∨ s.region = []) →
      (∀ c : OssClient, ossUploaderNew s ≠ Except.ok c) ∧
      ∃ msg, ossUploaderNew s = Except.error msg) := by
  by_cases h1 : s.accessKeyId = [] ∨ s.accessKeySecret = []
  · refine ⟨fun h => absurd h1 (by tauto), fun _ => ?_⟩
    simp [ossUploaderNew, validateSettings, h1]
  · by_cases h2 : s.bucket = [] ∨ s.region = []
    · refine ⟨fun h => absurd h2 (by tauto), fun _ => ?_⟩
      simp [ossUploaderNew, validateSettings, h1, h2]
    · refine ⟨fun _ => ?_, fun h => absurd h (by tauto)⟩
      simp [ossUploaderNew, validateSettings, h1, h2]

/-- Witness for C3 at a fully configured and an unconfigured settings value. -/
theorem c3_construction_validation_witness :
    ossUploaderNew
        { accessKeyId := "k".toList, accessKeySecret := "s".toList,
          bucket := "b".toList, region := "r".toList, prefixField := [],
          usePublicUrl := true } =
      Except.ok (mkOssClient
        { accessKeyId := "k".toList, accessKeySecret := "s".toList,
          bucket := "b".toList, region := "r".toList, prefixField := [],
          usePublicUrl := true }) ∧
    ((∀ c : OssClient,
        ossUploaderNew
          { accessKeyId := [], accessKeySecret := "s".toList,
            bucket := "b".toList, region := "r".toList, prefixField := [],
            usePublicUrl := true } ≠ Except.ok c) ∧
      ∃ msg,
        ossUploaderNew
          { accessKeyId := [], accessKeySecret := "s".toList,
            bucket := "b".toList, region := "r".toList, prefixField := [],
            usePublicUrl := true } = Except.error msg) :=
  ⟨(c3_construction_validation _).1 (by decide),
    (c3_construction_validation _).2 (Or.inl rfl)⟩

/-! ## Claim C9: uploader ownership -/

/-- C9 counterexample: with a previously constructed uploader held and the
current settings missing a required field (`accessKeyId` empty),
`initUploader` leaves the stale uploader in place instead of nulling it, so
the controller does hold an uploader instance afterwards. -/
theorem c9_stale_uploader_counterexample :
    (initUploader
        { uploader := some (mkOssClient
            { accessKeyId := "k".toList, accessKeySecret := "s".toList,
              bucket := "b".toList, region := "r".toList, prefixField := [],
              usePublicUrl := true }) }
        { accessKeyId := [], accessKeySecret := "s".toList,
          bucket := "b".toList, region := "r".toList, prefixField := [],
          usePublicUrl := true }).uploader ≠ none := by decide

/-- C9 as amended: the uploader is null after teardown, and `initUploader`
mutates the reference only when all four required fields are non-empty (in
which case it installs the freshly constructed client); when a required
field is empty the previous state — stale uploader included — survives
unchanged. -/
theorem c9_uploader_lifecycle (st : PluginState) (s : OssPicbedSettings) :
    (onunloadStep st).uploader = none ∧
    (requiredFieldsPresent s = false → initUploader st s = st) ∧
    (requiredFieldsPresent s = true →
      (initUploader st s).uploader = some (mkOssClient s)) := by
  refine ⟨rfl, fun h => ?_, fun h => ?_⟩
  · simp [initUploader, h]
  · have h4 : s.accessKeyId ≠ [] ∧ s.accessKeySecret ≠ [] ∧
      s.bucket ≠ [] ∧ s.region ≠ [] := by
      simp [requiredFieldsPresent, List.isEmpty_iff] at h
      tauto
    simp [initUploader, h, ossUploaderNew, validateSettings,
      h4.1, h4.2.1, h4.2.2.1, h4.2.2.2]

/-- Witness for C9's amended statement at concrete states. -/
theorem c9_uploader_lifecycle_witness :
    (onunloadStep { uploader := none }).uploader = none ∧
    (initUploader { uploader := none }
        { accessKeyId := "k".toList, accessKeySecret := "s".toList,
          bucket := "b".toList, region := "r".toList, prefixField := [],
          usePublicUrl := true }).uploader =
      some (mkOssClient
        { accessKeyId := "k".toList, accessKeySecret := "s".toList,
          bucket := "b".toList, region := "r".toList, prefixField := [],
          usePublicUrl := true }) :=
  ⟨(c9_uploader_lifecycle { uploader := none }
      { accessKeyId := "k".toList, accessKeySecret := "s".toList,
        bucket := "b".toList, region := "r".toList, prefixField := [],
        usePublicUrl := true }).1,
    (c9_uploader_lifecycle { uploader := none } _).2.2 (by decide)⟩

/-! ## Claim C5: generated file names -/

/-- `splitP` never returns an empty list of segments. -/
theorem splitP_ne_nil (p : Char → Bool) : ∀ cs, splitP p cs ≠ [] := by
  intro cs
  cases cs with
  | nil => simp [splitP]
  | cons c rest =>
    simp only [splitP]
    split
    · simp
    · split <;> simp

/-- A separator-free string splits into the single segment it is. -/
theorem splitP_sep_free (p : Char → Bool) :
    ∀ cs, (∀ c ∈ cs, p c = false) → splitP p cs = [cs] := by
  intro cs
  induction cs with
  | nil => intro _; rfl
  | cons c rest ih =>
    intro h
    have hc : p c = false := h c (by simp)
    simp only [splitP, hc, Bool.false_eq_true, if_false]
    rw [ih (fun d hd => h d (by simp [hd]))]

/-- A string containing a separator splits into at least two segments. -/
theorem splitP_length_two (p : Char → Bool) (s : Char) (hs : p s = true) :
    ∀ xs ys, 2 ≤ (splitP p (xs ++ s :: ys)).length := by
  intro xs
  induction xs with
  | nil =>
    intro ys
    have hne := splitP_ne_nil p ys
    simp only [List.nil_append, splitP, hs, if_true]
    cases h : splitP p ys with
    | nil => exact absurd h hne
    | cons a l => simp
  | cons c xs ih =>
    intro ys
    simp only [List.cons_append, splitP]
    split
    · have := splitP_ne_nil p (xs ++ s :: ys)
      cases h : splitP p (xs ++ s :: ys) with
      | nil => exact absurd h this
      | cons a l => simp
    · cases h : splitP p (xs ++ s :: ys) with
      | nil => exact absurd h (splitP_ne_nil p (xs ++ s :: ys))
      | cons t ts =>
        have h2 := ih ys
        rw [h] at h2
        simp at h2 ⊢
        omega

/-- The final segment after the last separator: splitting `xs ++ s :: ys`
ends the way splitting `ys` does. -/
theorem splitP_getLast_append (p : Char → Bool) (s : Char) (hs : p s = true) :
    ∀ xs ys, (splitP p (xs ++ s :: ys)).getLast? = (splitP p ys).getLast? := by
  intro xs
  induction xs with
  | nil =>
    intro ys
    simp only [List.nil_append, splitP, hs, if_true]
    cases h : splitP p ys with
    | nil => exact absurd h (splitP_ne_nil p ys)
    | cons a l => simp
  | cons c xs ih =>
    intro ys
    simp only [List.cons_append, splitP]
    split
    · cases h : splitP p (xs ++ s :: ys) with
      | nil => exact absurd h (splitP_ne_nil p (xs ++ s :: ys))
      | cons t ts =>
        have := ih ys
        rw [h] at this
        simpa using this
    · cases h : splitP p (xs ++ s :: ys) with
      | nil => exact absurd h (splitP_ne_nil p (xs ++ s :: ys))
      | cons t ts =>
        have hlen := splitP_length_two p s hs xs ys
        rw [h] at hlen
        cases ts with
        | nil => simp at hlen
        | cons u ts' =>
          have := ih ys
          rw [h] at this
          rw [List.getLast?_cons_cons] at this ⊢
          exact this

/-- The extension of a name `base.ext` with a dot-free non-empty `ext` is
`ext`. -/
theorem extensionOf_append_ext (base ext : List Char)
    (hfree : ∀ c ∈ ext, c ≠ '.') : extensionOf (base ++ '.' :: ext) = ext := by
  unfold extensionOf
  rw [splitP_getLast_append _ '.' (by simp) base ext]
  rw [splitP_sep_free _ ext (fun c hc => by simp [hfree c hc])]
  rfl

/-- The extension of a dot-free name is the whole name. -/
theorem extensionOf_dot_free (name : List Char)
    (hfree : ∀ c ∈ name, c ≠ '.') : extensionOf name = name := by
  unfold extensionOf
  rw [splitP_sep_free _ name (fun c hc => by simp [hfree c hc])]
  rfl

/-- C5 counterexample: the dotless file name `photo` yields filename segment
`T.photo`, not `T` alone as the claim requires for a file with no
extension. -/
theorem c5_extensionless_counterexample :
    generateFileName "photo".toList 1700 = natChars 1700 ++ '.' :: "photo".toList ∧
    generateFileName "photo".toList 1700 ≠ natChars 1700 := by decide

/-- C5 as amended: a name `base.ext` with dot-free non-empty `ext` (so in
particular any name ending in `.png`) yields filename segment `T.ext`; but a
dotless non-empty name is used whole as the extension, yielding `T.name`;
the bare `T` form occurs exactly for an empty name or a name ending in a
dot. -/
theorem c5_filename_generation (t : Nat) :
    (∀ base ext, (∀ c ∈ ext, c ≠ '.') → ext ≠ [] →
      generateFileName (base ++ '.' :: ext) t = natChars t ++ '.' :: ext) ∧
    (∀ name, (∀ c ∈ name, c ≠ '.') → name ≠ [] →
      generateFileName name t = natChars t ++ '.' :: name) ∧
    (∀ base, generateFileName (base ++ ['.']) t = natChars t) ∧
    generateFileName [] t = natChars t := by
  refine ⟨fun base ext hfree hne => ?_, fun name hfree hne => ?_,
    fun base => ?_, ?_⟩
  · rw [generateFileName, extensionOf_append_ext base ext hfree]
    simp [hne]
  · rw [generateFileName, extensionOf_dot_free name hfree]
    simp [hne]
  · have : extensionOf (base ++ ['.']) = [] := by
      unfold extensionOf
      rw [splitP_getLast_append _ '.' (by simp) base []]
      rfl
    rw [generateFileName, this]
    simp
  · rfl

/-- Witness for C5's amended statement: `pic.png` and the dotless `photo`. -/
theorem c5_filename_generation_witness :
    generateFileName ("pic".toList ++ '.' :: "png".toList) 1700 =
      natChars 1700 ++ '.' :: "png".toList ∧
    generateFileName "photo".toList 1700 =
      natChars 1700 ++ '.' :: "photo".toList :=
  ⟨(c5_filename_generation 1700).1 "pic".toList "png".toList (by decide) (by decide),
    (c5_filename_generation 1700).2.1 "photo".toList (by decide) (by decide)⟩

/-! ## Claim C1: settlement resolves the exact token span -/

/-- `strIndexOf` only reports real occurrences. -/
theorem strIndexOf_some (pat : List Char) :
    ∀ cs i, strIndexOf pat cs = some i → (cs.drop i).take pat.length = pat := by
  intro cs
  induction cs with
  | nil =>
    intro i h
    simp only [strIndexOf] at h
    split at h
    · cases h
      simpa using ‹pat = []›.symm
    · exact absurd h (by simp)
  | cons c rest ih =>
    intro i h
    simp only [strIndexOf] at h
    split at h
    · cases h
      simpa using ‹(c :: rest).take pat.length = pat›
    · rcases Option.map_eq_some'.mp h with ⟨i', hi', rfl⟩
      simpa using ih i' hi'

/-- `strIndexOf` reports an occurrence no later than any given one. -/
theorem strIndexOf_le (pat : List Char) :
    ∀ cs j, (cs.drop j).take pat.length = pat →
      ∃ i, strIndexOf pat cs = some i ∧ i ≤ j := by
  intro cs
  induction cs with
  | nil =>
    intro j h
    simp at h
    exact ⟨0, by simp [strIndexOf, h.symm], Nat.zero_le j⟩
  | cons c rest ih =>
    intro j h
    by_cases hm : (c :: rest).take pat.length = pat
    · exact ⟨0, by simp [strIndexOf, hm], Nat.zero_le j⟩
    · cases j with
      | zero => simp at h; exact absurd h hm
      | succ j' =>
        rw [List.drop_succ_cons] at h
        obtain ⟨i', hi', hle⟩ := ih j' h
        exact ⟨i' + 1, by simp [strIndexOf, hm, hi'], by omega⟩

/-- C1: when the token occurs in the settlement-time document at exactly one
index `i` (tokens are unique per upload), the failure path removes exactly
the character span `[i, i + tok.length)` — the `replace(token, "")`
first-match cannot hit anything but that span — and the success path
replaces exactly that span with the markdown reference. -/
theorem c1_settlement_exact_span (content tok url : List Char) (i : Nat)
    (htok : tok ≠ [])
    (hocc : (content.drop i).take tok.length = tok)
    (huniq : ((List.range (content.length + 1)).filter
        (fun j => decide ((content.drop j).take tok.length = tok))).length = 1) :
    removeToken content tok = content.take i ++ content.drop (i + tok.length) ∧
    replaceTokenWithImage content tok url =
      content.take i ++ imageMarkdown url ++ content.drop (i + tok.length) := by
  have hbound : ∀ j, (content.drop j).take tok.length = tok →
      j < content.length + 1 := by
    intro j hj
    by_contra hc
    push_neg at hc
    have hnil : content.drop j = [] := List.drop_eq_nil_of_le (by omega)
    rw [hnil] at hj
    simp at hj
    exact htok hj
  obtain ⟨x, hx⟩ := List.length_eq_one.mp huniq
  have hmem : ∀ j, (content.drop j).take tok.length = tok → j = x := by
    intro j hj
    have hj2 : j ∈ (List.range (content.length + 1)).filter
        (fun j => decide ((content.drop j).take tok.length = tok)) := by
      rw [List.mem_filter]
      exact ⟨List.mem_range.mpr (hbound j hj), by simpa using hj⟩
    rw [hx] at hj2
    simpa using hj2
  obtain ⟨i0, hi0, _⟩ := strIndexOf_le tok content i hocc
  have hocc0 := strIndexOf_some tok content i0 hi0
  have hii : strIndexOf tok content = some i := by
    rw [hi0, hmem i0 hocc0, hmem i hocc]
  constructor
  · rw [removeToken]
    simp [hii, replaceFirstStr]
  · simp [replaceTokenWithImage, hii]

/-- Witness for C1: a document holding two textually distinct tokens; the
settled one (the second) is removed/replaced at exactly its own span. -/
theorem c1_settlement_exact_span_witness :
    removeToken
        "a\x7b\x7bOSS_UPLOADING:1-aaaaaa\x7d\x7db\x7b\x7bOSS_UPLOADING:1-bbbbbb\x7d\x7d".toList
        "\x7b\x7bOSS_UPLOADING:1-bbbbbb\x7d\x7d".toList =
      "a\x7b\x7bOSS_UPLOADING:1-aaaaaa\x7d\x7db\x7b\x7bOSS_UPLOADING:1-bbbbbb\x7d\x7d".toList.take 28 ++
        "a\x7b\x7bOSS_UPLOADING:1-aaaaaa\x7d\x7db\x7b\x7bOSS_UPLOADING:1-bbbbbb\x7d\x7d".toList.drop
          (28 + "\x7b\x7bOSS_UPLOADING:1-bbbbbb\x7d\x7d".toList.length) ∧
    replaceTokenWithImage
        "a\x7b\x7bOSS_UPLOADING:1-aaaaaa\x7d\x7db\x7b\x7bOSS_UPLOADING:1-bbbbbb\x7d\x7d".toList
        "\x7b\x7bOSS_UPLOADING:1-bbbbbb\x7d\x7d".toList "u".toList =
      "a\x7b\x7bOSS_UPLOADING:1-aaaaaa\x7d\x7db\x7b\x7bOSS_UPLOADING:1-bbbbbb\x7d\x7d".toList.take 28 ++
        imageMarkdown "u".toList ++
        "a\x7b\x7bOSS_UPLOADING:1-aaaaaa\x7d\x7db\x7b\x7bOSS_UPLOADING:1-bbbbbb\x7d\x7d".toList.drop
          (28 + "\x7b\x7bOSS_UPLOADING:1-bbbbbb\x7d\x7d".toList.length) :=
  c1_settlement_exact_span _ _ "u".toList 28 (by decide) (by decide) (by decide)

/-! ## Claim C10: settlement with the token edited away -/

/-- C10: when the token is absent from the settlement-time document, the
replacement step leaves the text unchanged (no reference inserted anywhere),
while the cleanup pass still runs over the document and the success
notification is still emitted. -/
theorem c10_missing_token_frame (docAtSettle tok url : List Char)
    (habsent : strIndexOf tok docAtSettle = none) :
    replaceTokenWithImage docAtSettle tok url = docAtSettle ∧
    handleUploadSuccess docAtSettle tok url =
      { doc := cleanupPastedImages docAtSettle, notice := noticeUploadSuccess } := by
  constructor
  · simp [replaceTokenWithImage, habsent]
  · simp [handleUploadSuccess, replaceTokenWithImage, habsent]

/-- Witness for C10 at a token-free document. -/
theorem c10_missing_token_frame_witness :
    replaceTokenWithImage "hello world".toList
        "\x7b\x7bOSS_UPLOADING:1-aaaaaa\x7d\x7d".toList "u".toList =
      "hello world".toList ∧
    handleUploadSuccess "hello world".toList
        "\x7b\x7bOSS_UPLOADING:1-aaaaaa\x7d\x7d".toList "u".toList =
      { doc := cleanupPastedImages "hello world".toList
        notice := noticeUploadSuccess } :=
  c10_missing_token_frame _ _ "u".toList (by decide)

/-! ## Claim C2: mutations across the asynchronous wait -/

/-- C2 counterexample: the document held one reference at invoke time and
was replaced wholesale by `hello` during the awaited deletes; a mutation
recomputed from the settlement-time content would produce
`stripAllImages "hello"`, but delete-all instead writes the stripped
pre-wait snapshot. -/
theorem c2_snapshot_counterexample :
    deleteAllFinalDoc "![](u)x".toList (fun _ => "hello".toList) (fun _ => true) ≠
      stripAllImages ((fun _ => "hello".toList) "![](u)x".toList) := by decide

/-- C2 as amended: the token-settlement mutations (success replacement and
failure removal) depend only on the document content current at settlement
time — two runs whose documents agree at settlement agree entirely — whereas
delete-all's final document is a function of the pre-wait snapshot alone,
independent of any edits made during the wait. -/
theorem c2_mutation_freshness :
    (∀ d d' (e e' : List Char → List Char) tok outcome, e d = e' d' →
      handleUploadSettle d e tok outcome = handleUploadSettle d' e' tok outcome) ∧
    (∀ c0 (e e' : List Char → List Char) del,
      deleteAllFinalDoc c0 e del = deleteAllFinalDoc c0 e' del) := by
  constructor
  · intro d d' e e' tok outcome h
    cases outcome <;> simp [handleUploadSettle, h]
  · intro c0 e e' del
    simp [deleteAllFinalDoc]

/-- Witness for C2's amended statement: two runs agreeing at settlement give
the same result, and two different during-wait edit histories give the same
delete-all result. -/
theorem c2_mutation_freshness_witness :
    handleUploadSettle "a".toList id "T".toList (Except.ok "u".toList) =
      handleUploadSettle "b".toList (fun _ => "a".toList) "T".toList
        (Except.ok "u".toList) ∧
    deleteAllFinalDoc "![](u)x".toList id (fun _ => true) =
      deleteAllFinalDoc "![](u)x".toList (fun _ => "edited".toList) (fun _ => true) :=
  ⟨c2_mutation_freshness.1 "a".toList "b".toList id (fun _ => "a".toList)
      "T".toList (Except.ok "u".toList) rfl,
    c2_mutation_freshness.2 "![](u)x".toList id (fun _ => "edited".toList)
      (fun _ => true)⟩

/-! ## Claims C6 and C7: delete-all -/

/-- A regex match is never empty (the pattern needs at least `![]()`). -/
theorem matchImageAt_pos (cs : List Char) (len : Nat) (url : List Char)
    (h : matchImageAt cs = some (len, url)) : 0 < len := by
  unfold matchImageAt at h
  split at h
  · rcases Option.map_eq_some'.mp h with ⟨p, _, hp⟩
    cases hp
    omega
  · exact absurd h (by simp)

/-- Fuel irrelevance for the global strip, for any fuel at least the input
length. -/
theorem stripAllAux_agree : ∀ f g cs, cs.length ≤ f → cs.length ≤ g →
    stripAllAux f cs = stripAllAux g cs := by
  intro f
  induction f with
  | zero =>
    intro g cs hf _
    have : cs = [] := List.length_eq_zero.mp (Nat.le_zero.mp hf)
    subst this
    cases g <;> rfl
  | succ f ih =>
    intro g cs hf hg
    cases cs with
    | nil => cases g <;> rfl
    | cons c rest =>
      cases g with
      | zero => simp at hg
      | succ g' =>
        cases h : matchImageAt (c :: rest) with
        | none =>
          have h1 : rest.length ≤ f := by simp at hf; omega
          have h2 : rest.length ≤ g' := by simp at hg; omega
          simp only [stripAllAux, h]
          rw [ih g' rest h1 h2]
        | some p =>
          obtain ⟨len, url⟩ := p
          have hpos := matchImageAt_pos _ _ _ h
          have hd : ((c :: rest).drop len).length ≤ f := by
            simp only [List.length_drop]
            simp at hf ⊢
            omega
          have hd2 : ((c :: rest).drop len).length ≤ g' := by
            simp only [List.length_drop]
            simp at hg ⊢
            omega
          simp only [stripAllAux, h]
          rw [ih g' _ hd hd2]

/-- With no match anywhere, the global strip is the identity. -/
theorem stripAll_of_none : ∀ cs, findFirstImage cs = none → stripAllImages cs = cs := by
  intro cs
  induction cs with
  | nil => intro _; rfl
  | cons c rest ih =>
    intro h
    have hm : matchImageAt (c :: rest) = none := by
      cases hq : matchImageAt (c :: rest) with
      | none => rfl
      | some p =>
        obtain ⟨len, u⟩ := p
        unfold findFirstImage at h
        rw [hq] at h
        simp at h
    have hrest : findFirstImage rest = none := by
      unfold findFirstImage at h
      rw [hm] at h
      simpa using h
    unfold stripAllImages
    simp only [List.length_cons, stripAllAux, hm]
    rw [show stripAllAux rest.length rest = stripAllImages rest from rfl, ih hrest]

/-- The global strip removes exactly the leftmost matched span and continues
after it. -/
theorem stripAll_step : ∀ cs i len, findFirstImage cs = some (i, len) →
    stripAllImages cs = cs.take i ++ stripAllImages (cs.drop (i + len)) := by
  intro cs
  induction cs with
  | nil => intro i len h; simp [findFirstImage] at h
  | cons c rest ih =>
    intro i len h
    cases hm : matchImageAt (c :: rest) with
    | some p =>
      obtain ⟨len0, u⟩ := p
      unfold findFirstImage at h
      rw [hm] at h
      simp at h
      obtain ⟨rfl, rfl⟩ := h
      unfold stripAllImages
      simp only [List.length_cons, stripAllAux, hm]
      rw [stripAllAux_agree rest.length ((c :: rest).drop len0).length
        ((c :: rest).drop len0) ?_ le_rfl]
      · simp
      · have := matchImageAt_pos _ _ _ hm
        simp only [List.length_drop]
        simp
        omega
    | none =>
      unfold findFirstImage at h
      rw [hm] at h
      rcases Option.map_eq_some'.mp h with ⟨p, hp, heq⟩
      obtain ⟨i', len'⟩ := p
      simp at heq
      obtain ⟨rfl, rfl⟩ := heq
      unfold stripAllImages
      simp only [List.length_cons, stripAllAux, hm]
      rw [show stripAllAux rest.length rest = stripAllImages rest from rfl,
        ih i' len' hp]
      have harith : i' + 1 + len' = (i' + len') + 1 := by omega
      rw [List.take_succ_cons, harith, List.drop_succ_cons]
      simp [stripAllImages, List.length_drop]

/-- C6 counterexample: the document `![]()` has exactly one matched
reference, yet the notice reports `Deleted 0 image(s)` because the matched
URL parses to an empty key and is dropped by `filter(Boolean)` before
counting — the reported number depends on the content of the matched URL. -/
theorem c6_count_counterexample :
    (collectImages "![]()".toList).length = 1 ∧
    (deleteAllImages "![]()".toList (fun _ => true)).notice ≠
      deletedNotice (collectImages "![]()".toList).length := by decide

/-- C6 as amended: delete-all reports the number of matched references whose
URL resolves to a non-empty key (`keys.length`), a count independent of the
remote delete outcomes but not of the URLs' content. -/
theorem c6_reported_count (doc : List Char) (del del' : List Char → Bool)
    (h : collectImages doc ≠ []) :
    (deleteAllImages doc del).notice =
      deletedNotice (((collectImages doc).map parseKeyFromUrl).filter
        (fun k => !k.isEmpty)).length ∧
    (deleteAllImages doc del).notice = (deleteAllImages doc del').notice := by
  constructor <;> simp [deleteAllImages, h]

/-- Witness for C6's amended statement on a one-reference document. -/
theorem c6_reported_count_witness :
    (deleteAllImages "![](a)".toList (fun _ => true)).notice =
      deletedNotice (((collectImages "![](a)".toList).map parseKeyFromUrl).filter
        (fun k => !k.isEmpty)).length ∧
    (deleteAllImages "![](a)".toList (fun _ => true)).notice =
      (deleteAllImages "![](a)".toList (fun _ => false)).notice :=
  c6_reported_count "![](a)".toList (fun _ => true) (fun _ => false) (by decide)

/-- C7: every resolved key is attempted regardless of the outcome function,
one failing delete changes neither the final document nor the notice (the
batch is joined all-settled, never aborted), the final document is the
snapshot stripped of matches, and the strip removes exactly each successive
leftmost matched span (and is the identity when nothing matches). -/
theorem c7_batch_isolation (doc : List Char) (del del' : List Char → Bool) :
    ((deleteAllImages doc del).attempts.map Prod.fst =
      ((collectImages doc).map parseKeyFromUrl).filter (fun k => !k.isEmpty)) ∧
    ((deleteAllImages doc del).finalDoc = (deleteAllImages doc del').finalDoc ∧
      (deleteAllImages doc del).notice = (deleteAllImages doc del').notice) ∧
    (collectImages doc ≠ [] →
      (deleteAllImages doc del).finalDoc = stripAllImages doc) ∧
    (∀ cs i len, findFirstImage cs = some (i, len) →
      stripAllImages cs = cs.take i ++ stripAllImages (cs.drop (i + len))) ∧
    (∀ cs, findFirstImage cs = none → stripAllImages cs = cs) := by
  refine ⟨?_, ⟨?_, ?_⟩, fun h => ?_, stripAll_step, stripAll_of_none⟩
  · by_cases h : collectImages doc = [] <;> simp [deleteAllImages, h]
    rw [show (Prod.fst ∘ fun k : List Char => (k, del k)) = id from rfl,
      List.map_id]
  · by_cases h : collectImages doc = [] <;> simp [deleteAllImages, h]
  · by_cases h : collectImages doc = [] <;> simp [deleteAllImages, h]
  · simp [deleteAllImages, h]

/-- Witness for C7 on concrete documents. -/
theorem c7_batch_isolation_witness :
    (deleteAllImages "![](a)![](b)".toList (fun _ => false)).finalDoc =
      stripAllImages "![](a)![](b)".toList ∧
    stripAllImages "x![](a)y".toList =
      "x![](a)y".toList.take 1 ++ stripAllImages ("x![](a)y".toList.drop (1 + 6)) :=
  ⟨(c7_batch_isolation "![](a)![](b)".toList (fun _ => false)
      (fun _ => true)).2.2.1 (by decide),
    (c7_batch_isolation [] (fun _ => true) (fun _ => true)).2.2.2.1
      "x![](a)y".toList 1 6 (by decide)⟩

/-! ## Claim C8: single-image delete -/

/-- C8: with a resolvable key, a failed remote delete leaves the document
lines untouched and surfaces the error; only a successful delete rewrites
the addressed line, and that rewrite removes exactly the first matched
image-reference span of the line, preserving the rest. -/
theorem c8_single_delete (docLines : List (List Char)) (n : Nat)
    (url err : List Char) (hkey : parseKeyFromUrl url ≠ []) :
    deleteImage docLines n url (Except.error err) =
      (docLines, noticeDeleteFailed err) ∧
    deleteImage docLines n url (Except.ok ()) =
      (docLines.set n (lineStripFirstImage (docLines.getD n [])),
        noticeDeleteSuccess) ∧
    (∀ i len, findFirstImage (docLines.getD n []) = some (i, len) →
      lineStripFirstImage (docLines.getD n []) =
        (docLines.getD n []).take i ++ (docLines.getD n []).drop (i + len)) := by
  refine ⟨?_, ?_, fun i len h => ?_⟩
  · simp [deleteImage, hkey]
  · simp [deleteImage, hkey]
  · unfold lineStripFirstImage
    rw [h]

/-- Witness for C8 on a one-line document. -/
theorem c8_single_delete_witness :
    deleteImage ["a![](u)b".toList] 0 "u".toList (Except.error "boom".toList) =
      (["a![](u)b".toList], noticeDeleteFailed "boom".toList) ∧
    deleteImage ["a![](u)b".toList] 0 "u".toList (Except.ok ()) =
      (["a![](u)b".toList].set 0
        (lineStripFirstImage (["a![](u)b".toList].getD 0 [])),
        noticeDeleteSuccess) :=
  ⟨(c8_single_delete ["a![](u)b".toList] 0 "u".toList "boom".toList
      (by decide)).1,
    (c8_single_delete ["a![](u)b".toList] 0 "u".toList "boom".toList
      (by decide)).2.1⟩

/-! ## Claim C4: key/URL round trip -/

/-- Hex digits uppercase-encode and decode consistently. -/
theorem hexVal_hexDigitChar : ∀ x : Nat, x < 16 → hexVal (hexDigitChar x) = some x := by
  decide

/-- Unicode scalar values avoid the surrogate range and the 0x110000 bound. -/
theorem char_valid_nat (c : Char) :
    c.toNat < 0xD800 ∨ (0xE000 ≤ c.toNat ∧ c.toNat < 0x110000) := by
  have h := c.valid
  simp [UInt32.isValidChar, Nat.isValidChar] at h
  exact h

set_option maxHeartbeats 2000000 in
/-- Decoding one percent-escape cluster inverts the UTF-8 percent-encoding
of any scalar value, leaving the trailing input untouched. -/
theorem decodeEscape_enc (c : Char) :
    ∀ t, decodeEscape ((utf8Bytes c.toNat).flatMap byteToPct ++ t) = some (c, t) := by
  intro t
  have hv := char_valid_nat c
  have hofn := Char.ofNat_toNat c
  set n := c.toNat with hn
  by_cases h1 : n < 0x80
  · have hb : utf8Bytes n = [n] := by unfold utf8Bytes; rw [if_pos h1]
    rw [hb]
    simp only [List.flatMap_cons, List.flatMap_nil, List.append_nil, byteToPct,
      List.cons_append, List.nil_append]
    simp only [decodeEscape]
    rw [hexVal_hexDigitChar (n / 16) (by omega), hexVal_hexDigitChar (n % 16) (by omega)]
    simp only []
    split_ifs <;> first
      | (exfalso; omega)
      | (simp only [Option.some.injEq, Prod.mk.injEq]
         refine ⟨?_, trivial⟩
         rw [← hofn]
         exact congrArg Char.ofNat (by omega))
  · by_cases h2 : n < 0x800
    · have hb : utf8Bytes n = [0xC0 + n / 64, 0x80 + n % 64] := by
        unfold utf8Bytes; rw [if_neg h1, if_pos h2]
      rw [hb]
      simp only [List.flatMap_cons, List.flatMap_nil, List.append_nil, byteToPct,
        List.cons_append, List.nil_append]
      simp only [decodeEscape]
      rw [hexVal_hexDigitChar ((0xC0 + n / 64) / 16) (by omega),
        hexVal_hexDigitChar ((0xC0 + n / 64) % 16) (by omega),
        hexVal_hexDigitChar ((0x80 + n % 64) / 16) (by omega),
        hexVal_hexDigitChar ((0x80 + n % 64) % 16) (by omega)]
      simp only []
      split_ifs <;> first
        | (exfalso; omega)
        | (simp only [Option.some.injEq, Prod.mk.injEq]
           refine ⟨?_, trivial⟩
           rw [← hofn]
           exact congrArg Char.ofNat (by omega))
    · by_cases h3 : n < 0x10000
      · have hb : utf8Bytes n =
            [0xE0 + n / 4096, 0x80 + (n / 64) % 64, 0x80 + n % 64] := by
          unfold utf8Bytes; rw [if_neg h1, if_neg h2, if_pos h3]
        rw [hb]
        simp only [List.flatMap_cons, List.flatMap_nil, List.append_nil, byteToPct,
          List.cons_append, List.nil_append]
        simp only [decodeEscape]
        rw [hexVal_hexDigitChar ((0xE0 + n / 4096) / 16) (by omega),
          hexVal_hexDigitChar ((0xE0 + n / 4096) % 16) (by omega),
          hexVal_hexDigitChar ((0x80 + (n / 64) % 64) / 16) (by omega),
          hexVal_hexDigitChar ((0x80 + (n / 64) % 64) % 16) (by omega),
          hexVal_hexDigitChar ((0x80 + n % 64) / 16) (by omega),
          hexVal_hexDigitChar ((0x80 + n % 64) % 16) (by omega)]
        simp only []
        split_ifs <;> first
          | (exfalso; omega)
          | (simp only [Option.some.injEq, Prod.mk.injEq]
             refine ⟨?_, trivial⟩
             rw [← hofn]
             exact congrArg Char.ofNat (by omega))
      · have hb : utf8Bytes n =
            [0xF0 + n / 262144, 0x80 + (n / 4096) % 64, 0x80 + (n / 64) % 64,
              0x80 + n % 64] := by
          unfold utf8Bytes; rw [if_neg h1, if_neg h2, if_neg h3]
        rw [hb]
        simp only [List.flatMap_cons, List.flatMap_nil, List.append_nil, byteToPct,
          List.cons_append, List.nil_append]
        simp only [decodeEscape]
        rw [hexVal_hexDigitChar ((0xF0 + n / 262144) / 16) (by omega),
          hexVal_hexDigitChar ((0xF0 + n / 262144) % 16) (by omega),
          hexVal_hexDigitChar ((0x80 + (n / 4096) % 64) / 16) (by omega),
          hexVal_hexDigitChar ((0x80 + (n / 4096) % 64) % 16) (by omega),
          hexVal_hexDigitChar ((0x80 + (n / 64) % 64) / 16) (by omega),
          hexVal_hexDigitChar ((0x80 + (n / 64) % 64) % 16) (by omega),
          hexVal_hexDigitChar ((0x80 + n % 64) / 16) (by omega),
          hexVal_hexDigitChar ((0x80 + n % 64) % 16) (by omega)]
        simp only []
        split_ifs <;> first
          | (exfalso; omega)
          | (simp only [Option.some.injEq, Prod.mk.injEq]
             refine ⟨?_, trivial⟩
             rw [← hofn]
             exact congrArg Char.ofNat (by omega))

/-- A decoded escape cluster consumes at least the three characters of one
`%HH` group. -/
theorem decodeEscape_length : ∀ cs ch r, decodeEscape cs = some (ch, r) →
    r.length < cs.length := by
  intro cs ch r h
  unfold decodeEscape at h
  repeat' split at h
  all_goals simp at h
  all_goals (obtain ⟨-, rfl⟩ := h; simp only [List.length_cons]; omega)

/-- Fuel irrelevance for decoding, for any fuel at least the input length. -/
theorem decodeAux_agree : ∀ f g cs, cs.length ≤ f → cs.length ≤ g →
    decodeAux f cs = decodeAux g cs := by
  intro f
  induction f with
  | zero =>
    intro g cs hf _
    have : cs = [] := List.length_eq_zero.mp (Nat.le_zero.mp hf)
    subst this
    cases g <;> rfl
  | succ f ih =>
    intro g cs hf hg
    cases cs with
    | nil => cases g <;> rfl
    | cons c rest =>
      cases g with
      | zero => simp at hg
      | succ g' =>
        simp only [decodeAux]
        by_cases hp : c = '%'
        · rw [if_pos hp, if_pos hp]
          cases h : decodeEscape (c :: rest) with
          | none => rfl
          | some p =>
            obtain ⟨ch, r⟩ := p
            have hlen := decodeEscape_length _ _ _ h
            simp only [List.length_cons] at hlen hf hg
            simp only [ih g' r (by omega) (by omega)]
        · rw [if_neg hp, if_neg hp]
          simp only [List.length_cons] at hf hg
          rw [ih g' rest (by omega) (by omega)]

/-- Decoding past a plain (non-`%`) character. -/
theorem decode_cons_plain (c : Char) (hc : ¬ c = '%') (t : List Char) :
    decodeURIComponent (c :: t) = (decodeURIComponent t).map (fun r => c :: r) := by
  unfold decodeURIComponent
  simp only [List.length_cons, decodeAux]
  rw [if_neg hc]

/-- The percent-encoding of one character never starts or continues with a
byte whose escape is `%2E`, and in particular a non-empty encoding exists:
`utf8Bytes` is never empty. -/
theorem utf8Bytes_ne_nil (n : Nat) : utf8Bytes n ≠ [] := by
  unfold utf8Bytes
  split_ifs <;> simp

/-- Decoding past one encoded character. -/
theorem decode_pct_char (c : Char) (t : List Char) :
    decodeURIComponent (pctEncodeChar c ++ t) =
      (decodeURIComponent t).map (fun r => c :: r) := by
  by_cases hcu : isUnres c
  · have hc : pctEncodeChar c = [c] := by unfold pctEncodeChar; rw [if_pos hcu]
    have hne : ¬ c = '%' := by
      intro h
      subst h
      simp [isUnres] at hcu
    rw [hc, List.singleton_append]
    exact decode_cons_plain c hne t
  · have hc : pctEncodeChar c = (utf8Bytes c.toNat).flatMap byteToPct := by
      unfold pctEncodeChar
      rw [if_neg hcu]
    obtain ⟨b, bs, hbs⟩ : ∃ b bs, utf8Bytes c.toNat = b :: bs := by
      cases h : utf8Bytes c.toNat with
      | nil => exact absurd h (utf8Bytes_ne_nil _)
      | cons b bs => exact ⟨b, bs, rfl⟩
    have hshape : pctEncodeChar c =
        '%' :: hexDigitChar (b / 16) :: hexDigitChar (b % 16) ::
          bs.flatMap byteToPct := by
      rw [hc, hbs]
      simp [byteToPct, List.flatMap_cons]
    have hesc := decodeEscape_enc c t
    rw [← hc, hshape] at hesc
    rw [hshape]
    simp only [List.cons_append] at hesc ⊢
    unfold decodeURIComponent
    simp only [List.length_cons, decodeAux]
    simp only [if_true, hesc]
    rw [decodeAux_agree ((bs.flatMap byteToPct ++ t).length + 1 + 1) t.length t
      (by simp only [List.length_append]; omega) le_rfl]

/-- Decoding inverts encoding, componentwise, over any trailing input. -/
theorem decode_encode_append : ∀ s t,
    decodeURIComponent (encodeURIComponent s ++ t) =
      (decodeURIComponent t).map (fun r => s ++ r) := by
  intro s
  induction s with
  | nil =>
    intro t
    simp only [encodeURIComponent, List.flatMap_nil, List.nil_append]
    cases decodeURIComponent t <;> simp
  | cons c cs ih =>
    intro t
    have h1 : encodeURIComponent (c :: cs) =
        pctEncodeChar c ++ encodeURIComponent cs := by
      simp [encodeURIComponent, List.flatMap_cons]
    rw [h1, List.append_assoc, decode_pct_char, ih]
    cases decodeURIComponent t <;> simp

/-- Decoding inverts encoding. -/
theorem decode_encode (s : List Char) :
    decodeURIComponent (encodeURIComponent s) = some s := by
  have h := decode_encode_append s []
  simpa [decodeURIComponent, decodeAux] using h

/-- Decoding a slash-joined list of encoded segments recovers the
slash-joined original segments. -/
theorem decode_joinSep_encode : ∀ segs : List (List Char),
    decodeURIComponent (joinSep ['/'] (segs.map encodeURIComponent)) =
      some (joinSep ['/'] segs)
  | [] => by simp [joinSep, decodeURIComponent, decodeAux]
  | [x] => by
    simp only [List.map_cons, List.map_nil, joinSep]
    exact decode_encode x
  | x :: y :: rest => by
    have ih := decode_joinSep_encode (y :: rest)
    simp only [List.map_cons, joinSep] at ih ⊢
    rw [List.append_assoc, decode_encode_append, List.singleton_append,
      decode_cons_plain '/' (by decide), ih]
    simp

/-- Joining the split of a string on a separator recovers the string. -/
theorem joinSep_splitP_eq (s : Char) : ∀ cs,
    joinSep [s] (splitP (fun c => c = s) cs) = cs := by
  intro cs
  induction cs with
  | nil => rfl
  | cons c rest ih =>
    by_cases hc : c = s
    · simp only [splitP]
      rw [if_pos (by simp [hc])]
      cases h : splitP (fun c => c = s) rest with
      | nil => exact absurd h (splitP_ne_nil _ _)
      | cons t ts =>
        rw [h] at ih
        simp only [joinSep, List.nil_append, List.singleton_append]
        rw [ih, hc]
    · simp only [splitP]
      rw [if_neg (by simp [hc])]
      cases h : splitP (fun c => c = s) rest with
      | nil => exact absurd h (splitP_ne_nil _ _)
      | cons t ts =>
        rw [h] at ih
        cases ts with
        | nil =>
          simp only [joinSep] at ih ⊢
          rw [ih]
        | cons u ts' =>
          simp only [joinSep] at ih ⊢
          rw [List.cons_append, List.cons_append, ih]

/-- UTF-8 bytes are bytes. -/
theorem utf8Bytes_lt (n : Nat) (hn : n < 0x110000) : ∀ b ∈ utf8Bytes n, b < 256 := by
  intro b hb
  unfold utf8Bytes at hb
  split_ifs at hb with h1 h2 h3
  · simp at hb; omega
  · simp at hb; rcases hb with rfl | rfl <;> omega
  · simp at hb; rcases hb with rfl | rfl | rfl <;> omega
  · simp at hb; rcases hb with rfl | rfl | rfl | rfl <;> omega

/-- Hex digits are unreserved characters. -/
theorem hexDigitChar_unres : ∀ x : Nat, x < 16 → isUnres (hexDigitChar x) = true := by
  decide

/-- Every character of an encoded component is unreserved or `%`. -/
theorem encode_chars (s0 : List Char) :
    ∀ c ∈ encodeURIComponent s0, isUnres c = true ∨ c = '%' := by
  intro c hc
  rw [encodeURIComponent, List.mem_flatMap] at hc
  obtain ⟨a, _, hca⟩ := hc
  unfold pctEncodeChar at hca
  split_ifs at hca with hu
  · simp at hca
    subst hca
    exact Or.inl hu
  · rw [List.mem_flatMap] at hca
    obtain ⟨b, hb, hcb⟩ := hca
    have hblt : b < 256 := utf8Bytes_lt a.toNat
      (by rcases char_valid_nat a with h | h <;> omega) b hb
    simp [byteToPct] at hcb
    rcases hcb with rfl | rfl | rfl
    · exact Or.inr rfl
    · exact Or.inl (hexDigitChar_unres _ (by omega))
    · exact Or.inl (hexDigitChar_unres _ (by omega))

/-- Encoded components contain no path separators and no path terminators. -/
theorem encode_not_pathChars (s0 : List Char) :
    ∀ c ∈ encodeURIComponent s0, isPathEnd c = false ∧ isPathSep c = false := by
  intro c hc
  rcases encode_chars s0 c hc with h | h
  · have h12 : c.toNat ≠ 63 ∧ c.toNat ≠ 35 ∧ c.toNat ≠ 47 ∧ c.toNat ≠ 92 := by
      unfold isUnres at h
      simp only [Bool.or_eq_true, decide_eq_true_eq] at h
      omega
    constructor <;>
      simp [isPathEnd, isPathSep, h12.1, h12.2.1, h12.2.2.1, h12.2.2.2]
  · subst h
    constructor <;> decide

/-- A host-safe character neither ends the authority nor interferes with
userinfo/port parsing. -/
theorem hostSafe_facts (c : Char) (h : isHostSafe c = true) :
    isAuthorityEnd c = false ∧ ¬(c = '@') ∧ ¬(c = ':') := by
  have h2 : c.toNat ≠ 47 ∧ c.toNat ≠ 92 ∧ c.toNat ≠ 63 ∧ c.toNat ≠ 35 ∧
      c.toNat ≠ 58 ∧ c.toNat ≠ 64 := by
    unfold isHostSafe at h
    simp only [Bool.or_eq_true, decide_eq_true_eq] at h
    omega
  refine ⟨?_, ?_, ?_⟩
  · simp [isAuthorityEnd, h2.1, h2.2.1, h2.2.2.1, h2.2.2.2.1]
  · intro he
    rw [he] at h2
    simp at h2
  · intro he
    rw [he] at h2
    simp at h2

/-- Characters of a slash-joined list come from the separator or a part. -/
theorem mem_joinSep (sep : Char) : ∀ parts (c : Char), c ∈ joinSep [sep] parts →
    c = sep ∨ ∃ part ∈ parts, c ∈ part
  | [], c => by intro hc; simp [joinSep] at hc
  | [x], c => by
    intro hc
    simp only [joinSep] at hc
    exact Or.inr ⟨x, by simp, hc⟩
  | x :: y :: rest, c => by
    intro hc
    simp only [joinSep] at hc
    rw [List.append_assoc, List.mem_append] at hc
    rcases hc with hc | hc
    · exact Or.inr ⟨x, by simp, hc⟩
    · rw [List.singleton_append, List.mem_cons] at hc
      rcases hc with hc | hc
      · exact Or.inl hc
      · rcases mem_joinSep sep (y :: rest) c hc with h | ⟨p, hp, hcp⟩
        · exact Or.inl h
        · exact Or.inr ⟨p, List.mem_cons_of_mem x hp, hcp⟩

/-- `takeWhile` swallows a list all of whose elements satisfy the predicate. -/
theorem takeWhile_all (p : Char → Bool) : ∀ xs : List Char,
    (∀ c ∈ xs, p c = true) → xs.takeWhile p = xs := by
  intro xs
  induction xs with
  | nil => intro _; rfl
  | cons c rest ih =>
    intro h
    rw [List.takeWhile_cons, if_pos (h c (by simp))]
    rw [ih (fun d hd => h d (by simp [hd]))]

/-- `takeWhile`/`dropWhile` split exactly at the first failing element. -/
theorem span_append (p : Char → Bool) : ∀ (xs : List Char) (y : Char)
    (ys : List Char), (∀ c ∈ xs, p c = true) → p y = false →
    (xs ++ y :: ys).takeWhile p = xs ∧ (xs ++ y :: ys).dropWhile p = y :: ys := by
  intro xs
  induction xs with
  | nil =>
    intro y ys _ hy
    constructor
    · rw [List.nil_append, List.takeWhile_cons, if_neg (by simp [hy])]
    · rw [List.nil_append, List.dropWhile_cons, if_neg (by simp [hy])]
  | cons c rest ih =>
    intro y ys h hy
    have hc : p c = true := h c (by simp)
    obtain ⟨ht, hd⟩ := ih y ys (fun d hd => h d (by simp [hd])) hy
    constructor
    · rw [List.cons_append, List.takeWhile_cons, if_pos hc, ht]
    · rw [List.cons_append, List.dropWhile_cons, if_pos hc, hd]

/-- Splitting a string that starts with a separator-free part followed by a
separator peels off that part. -/
theorem splitP_append_sep (p : Char → Bool) (s : Char) (hs : p s = true) :
    ∀ xs r, (∀ c ∈ xs, p c = false) → splitP p (xs ++ s :: r) = xs :: splitP p r := by
  intro xs
  induction xs with
  | nil =>
    intro r _
    simp only [List.nil_append, splitP]
    rw [if_pos hs]
  | cons c cx ih =>
    intro r h
    have hc : p c = false := h c (by simp)
    simp only [List.cons_append, splitP]
    rw [if_neg (by simp [hc])]
    simp only [List.append_eq]
    rw [ih r (fun d hd => h d (by simp [hd]))]

/-- Splitting a separator-joined list of separator-free parts recovers the
parts. -/
theorem splitP_joinSep_parts (p : Char → Bool) (s : Char) (hs : p s = true) :
    ∀ parts, parts ≠ [] → (∀ part ∈ parts, ∀ c ∈ part, p c = false) →
      splitP p (joinSep [s] parts) = parts
  | [], h, _ => absurd rfl h
  | [x], _, h => by
    simp only [joinSep]
    exact splitP_sep_free p x (h x (by simp))
  | x :: y :: rest, _, h => by
    simp only [joinSep]
    rw [List.append_assoc, List.singleton_append,
      splitP_append_sep p s hs x _ (h x (by simp)),
      splitP_joinSep_parts p s hs (y :: rest) (by simp)
        (fun part hp => h part (List.mem_cons_of_mem x hp))]

/-- Dot-segment normalization is the identity on segment lists free of `.`
and `..`. -/
theorem normSegs_id : ∀ (L : List (List Char)) (acc : List (List Char)),
    (∀ s ∈ L, s ≠ ['.'] ∧ s ≠ ['.', '.']) →
    normSegs acc L = acc.reverse ++ L := by
  intro L
  induction L with
  | nil => intro acc _; simp [normSegs]
  | cons s L ih =>
    intro acc h
    have hs := h s (by simp)
    simp only [normSegs]
    rw [if_neg hs.2, if_neg hs.1,
      ih (s :: acc) (fun u hu => h u (List.mem_cons_of_mem s hu))]
    simp

/-- The encoding of one character is the character itself (unreserved) or a
non-empty percent cluster. -/
theorem pctEncodeChar_shape (c : Char) :
    pctEncodeChar c = [c] ∧ isUnres c = true ∨
    ∃ t, pctEncodeChar c = '%' :: t := by
  by_cases h : isUnres c
  · exact Or.inl ⟨by unfold pctEncodeChar; rw [if_pos h], h⟩
  · refine Or.inr ?_
    have hcl : pctEncodeChar c = (utf8Bytes c.toNat).flatMap byteToPct := by
      unfold pctEncodeChar
      rw [if_neg h]
    cases hb : utf8Bytes c.toNat with
    | nil => exact absurd hb (utf8Bytes_ne_nil _)
    | cons b bs =>
      refine ⟨hexDigitChar (b / 16) :: hexDigitChar (b % 16) ::
        bs.flatMap byteToPct, ?_⟩
      rw [hcl, hb]
      simp [byteToPct, List.flatMap_cons]

/-- An encoded component is empty only for the empty component. -/
theorem encode_eq_nil (s0 : List Char) (h : encodeURIComponent s0 = []) :
    s0 = [] := by
  cases s0 with
  | nil => rfl
  | cons c cs =>
    exfalso
    have h1 : encodeURIComponent (c :: cs) =
        pctEncodeChar c ++ encodeURIComponent cs := by
      simp [encodeURIComponent, List.flatMap_cons]
    rw [h1] at h
    rcases pctEncodeChar_shape c with ⟨hc, _⟩ | ⟨t, hc⟩ <;>
      rw [hc] at h <;> simp at h

/-- Only `.` encodes to `.`. -/
theorem encode_eq_dot (seg : List Char) (h : encodeURIComponent seg = ['.']) :
    seg = ['.'] := by
  cases seg with
  | nil => simp [encodeURIComponent] at h
  | cons c cs =>
    have h1 : encodeURIComponent (c :: cs) =
        pctEncodeChar c ++ encodeURIComponent cs := by
      simp [encodeURIComponent, List.flatMap_cons]
    rw [h1] at h
    rcases pctEncodeChar_shape c with ⟨hc, _⟩ | ⟨t, hc⟩
    · rw [hc, List.singleton_append] at h
      simp at h
      rw [h.1, encode_eq_nil cs h.2]
    · rw [hc, List.cons_append] at h
      simp at h

/-- Only `..` encodes to `..`. -/
theorem encode_eq_dotdot (seg : List Char)
    (h : encodeURIComponent seg = ['.', '.']) : seg = ['.', '.'] := by
  cases seg with
  | nil => simp [encodeURIComponent] at h
  | cons c cs =>
    have h1 : encodeURIComponent (c :: cs) =
        pctEncodeChar c ++ encodeURIComponent cs := by
      simp [encodeURIComponent, List.flatMap_cons]
    rw [h1] at h
    rcases pctEncodeChar_shape c with ⟨hc, _⟩ | ⟨t, hc⟩
    · rw [hc, List.singleton_append] at h
      simp at h
      rw [h.1, encode_eq_dot cs h.2]
    · rw [hc, List.cons_append] at h
      simp at h

/-- Splitting a string whose head is not a separator yields a first segment
with that same head. -/
theorem splitP_head_cons (p : Char → Bool) (c : Char) (k : List Char)
    (hc : p c = false) : ∃ s ss, splitP p (c :: k) = (c :: s) :: ss := by
  simp only [splitP]
  rw [if_neg (by simp [hc])]
  cases h : splitP p k with
  | nil => exact absurd h (splitP_ne_nil _ _)
  | cons t ts => exact ⟨t, ts, rfl⟩

/-- A separator-join of parts starting with `d :: t` starts with `d`. -/
theorem joinSep_head (sep : Char) (x : List Char) (xs : List (List Char))
    (d : Char) (t : List Char) (hx : x = d :: t) :
    ∃ u, joinSep [sep] (x :: xs) = d :: u := by
  cases xs with
  | nil => exact ⟨t, by simp [joinSep, hx]⟩
  | cons y ys =>
    exact ⟨t ++ [sep] ++ joinSep [sep] (y :: ys), by simp [joinSep, hx]⟩

/-- Stripping leading slashes from `/` followed by a non-slash-headed tail. -/
theorem dropWhile_slash (d : Char) (hd : ¬ d = '/') (u : List Char) :
    (('/' : Char) :: d :: u).dropWhile (fun c => c = '/') = d :: u := by
  rw [List.dropWhile_cons, if_pos (by simp), List.dropWhile_cons,
    if_neg (by simp [hd])]

/-- `new URL` on a well-formed public object URL: host-safe non-empty host,
path free of `?` and `#`. -/
theorem urlPathname_https (host enc : List Char)
    (hhost : ∀ c ∈ host, isHostSafe c = true) (hne : host ≠ [])
    (hencEnd : ∀ c ∈ enc, isPathEnd c = false) :
    urlPathname ("https://".toList ++ host ++ '/' :: enc) =
      some ('/' :: joinSep ['/'] (normSegs [] (splitP isPathSep enc))) := by
  have hscheme : schemeSplit ("https://".toList ++ (host ++ '/' :: enc)) =
      some (host ++ '/' :: enc) := rfl
  obtain ⟨htake, hdrop⟩ := span_append (fun c => !(isAuthorityEnd c)) host '/' enc
    (fun c hc => by simp [(hostSafe_facts c (hhost c hc)).1]) (by decide)
  have hhostat : splitP (fun c => c = '@') host = [host] :=
    splitP_sep_free _ host (fun c hc => by
      simp [(hostSafe_facts c (hhost c hc)).2.1])
  have hport : portDigitsOk host = true := by
    unfold portDigitsOk
    rw [splitP_sep_free _ host (fun c hc => by
      simp [(hostSafe_facts c (hhost c hc)).2.2])]
  have hpath : pathnameOf ('/' :: enc) =
      '/' :: joinSep ['/'] (normSegs [] (splitP isPathSep enc)) := by
    show (if isPathEnd '/' = true then ['/']
      else '/' :: joinSep ['/'] (normSegs [] (splitP isPathSep
        (List.takeWhile (fun d => !isPathEnd d) enc)))) =
      '/' :: joinSep ['/'] (normSegs [] (splitP isPathSep enc))
    rw [if_neg (by decide), takeWhile_all _ enc (fun c hc => by
      simp [hencEnd c hc])]
  unfold urlPathname
  rw [show "https://".toList ++ host ++ '/' :: enc =
    "https://".toList ++ (host ++ '/' :: enc) from by simp, hscheme]
  simp only [htake, hdrop, hhostat]
  rw [if_neg hne]
  simp only [List.getLast?_singleton, Option.getD_some, hport, if_true, hpath]

/-- `parseKeyFromUrl` round-trips the public URL of any slash-joined list of
dot-free segments whose first segment does not start with a slash. -/
theorem parseKey_of_public (host : List Char) (segs : List (List Char))
    (hhost : ∀ c ∈ host, isHostSafe c = true) (hne : host ≠ [])
    (hdot : ∀ seg ∈ segs, seg ≠ ['.'] ∧ seg ≠ ['.', '.'])
    (c0 : Char) (s1 : List Char) (ss1 : List (List Char))
    (hshape : segs = (c0 :: s1) :: ss1) (hc0 : ¬ c0 = '/') :
    parseKeyFromUrl ("https://".toList ++ host ++
      '/' :: joinSep ['/'] (segs.map encodeURIComponent)) =
      joinSep ['/'] segs := by
  have hencEnd : ∀ c ∈ joinSep ['/'] (segs.map encodeURIComponent),
      isPathEnd c = false := by
    intro c hc
    rcases mem_joinSep '/' (segs.map encodeURIComponent) c hc with rfl | ⟨p, hp, hcp⟩
    · decide
    · rcases List.mem_map.mp hp with ⟨seg, _, rfl⟩
      exact (encode_not_pathChars seg c hcp).1
  have hurl := urlPathname_https host (joinSep ['/'] (segs.map encodeURIComponent))
    hhost hne hencEnd
  have hpartsne : segs.map encodeURIComponent ≠ [] := by
    rw [hshape]
    simp
  have hpartfree : ∀ part ∈ segs.map encodeURIComponent,
      ∀ c ∈ part, isPathSep c = false := by
    intro part hp c hc
    rcases List.mem_map.mp hp with ⟨seg, _, rfl⟩
    exact (encode_not_pathChars seg c hc).2
  have hsplit : splitP isPathSep (joinSep ['/'] (segs.map encodeURIComponent)) =
      segs.map encodeURIComponent :=
    splitP_joinSep_parts isPathSep '/' (by decide) _ hpartsne hpartfree
  have hdotfreeEnc : ∀ part ∈ segs.map encodeURIComponent,
      part ≠ ['.'] ∧ part ≠ ['.', '.'] := by
    intro part hp
    rcases List.mem_map.mp hp with ⟨seg, hsm, rfl⟩
    exact ⟨fun he => (hdot seg hsm).1 (encode_eq_dot seg he),
      fun he => (hdot seg hsm).2 (encode_eq_dotdot seg he)⟩
  have hnorm : normSegs [] (segs.map encodeURIComponent) =
      segs.map encodeURIComponent := by
    have h := normSegs_id (segs.map encodeURIComponent) [] hdotfreeEnc
    simpa using h
  obtain ⟨d, t, hdt, hd⟩ : ∃ d t, encodeURIComponent (c0 :: s1) = d :: t ∧
      ¬ d = '/' := by
    rcases pctEncodeChar_shape c0 with ⟨hcp, _⟩ | ⟨t0, hcp⟩
    · exact ⟨c0, encodeURIComponent s1,
        by simp [encodeURIComponent, List.flatMap_cons, hcp], hc0⟩
    · exact ⟨'%', t0 ++ encodeURIComponent s1,
        by simp [encodeURIComponent, List.flatMap_cons, hcp], by decide⟩
  obtain ⟨u, hju⟩ := joinSep_head '/' (encodeURIComponent (c0 :: s1))
    (ss1.map encodeURIComponent) d t hdt
  have hencshape : joinSep ['/'] (segs.map encodeURIComponent) = d :: u := by
    rw [hshape, List.map_cons]
    exact hju
  have hdec : decodeURIComponent (d :: u) = some (joinSep ['/'] segs) := by
    rw [← hencshape]
    exact decode_joinSep_encode segs
  unfold parseKeyFromUrl
  rw [if_neg (by simp)]
  simp only [hurl]
  simp only [hsplit, hnorm]
  simp only [hencshape]
  simp only [dropWhile_slash d hd u, hdec]

/-- C4 counterexample: a key actually produced by the uploader under the
prefix setting `.` (key `./1700.png`) does not round-trip: `new URL`
collapses the dot segment, so parsing the resolved URL yields `1700.png`. -/
theorem c4_dot_segment_counterexample :
    parseKeyFromUrl (getUrl
        { accessKeyId := "k".toList, accessKeySecret := "s".toList,
          bucket := "b".toList, region := "r".toList,
          prefixField := ".".toList, usePublicUrl := true }
        (fun _ => [])
        (uploadKey
          { accessKeyId := "k".toList, accessKeySecret := "s".toList,
            bucket := "b".toList, region := "r".toList,
            prefixField := ".".toList, usePublicUrl := true }
          "1.png".toList 1700)) ≠
      uploadKey
        { accessKeyId := "k".toList, accessKeySecret := "s".toList,
          bucket := "b".toList, region := "r".toList,
          prefixField := ".".toList, usePublicUrl := true }
        "1.png".toList 1700 := by decide

/-- C4 as amended: under a public-URL configuration whose bucket and region
consist of host-safe characters, every non-empty key without a leading slash
and with no `.`/`..` slash-segment satisfies
`parseKeyFromUrl (getUrl key) = key`; uploader keys violating the
dot-segment condition (prefix `.`) break the round trip. -/
theorem c4_roundtrip (s : OssPicbedSettings) (signedUrl : List Char → List Char)
    (key : List Char)
    (hpub : s.usePublicUrl = true)
    (hb : ∀ c ∈ s.bucket, isHostSafe c = true)
    (hr : ∀ c ∈ s.region, isHostSafe c = true)
    (hk0 : key ≠ [])
    (hk1 : ∀ d, key.head? = some d → ¬ d = '/')
    (hseg : ∀ seg ∈ splitP (fun c => c = '/') key,
      seg ≠ ['.'] ∧ seg ≠ ['.', '.']) :
    parseKeyFromUrl (getUrl s signedUrl key) = key := by
  obtain ⟨c0, k', rfl⟩ : ∃ c0 k', key = c0 :: k' := by
    cases key with
    | nil => exact absurd rfl hk0
    | cons a b => exact ⟨a, b, rfl⟩
  have hc0 : ¬ c0 = '/' := hk1 c0 rfl
  obtain ⟨s1, ss1, hsegshape⟩ :=
    splitP_head_cons (fun c => c = '/') c0 k' (by simp [hc0])
  have hlit : ∀ c ∈ ".aliyuncs.com".toList, isHostSafe c = true := by decide
  have hhostchars : ∀ c ∈ aliyunHost s, isHostSafe c = true := by
    intro c hc
    unfold aliyunHost at hc
    simp only [List.mem_append, List.mem_cons] at hc
    rcases hc with (hc | hc | hc) | hc
    · exact hb c hc
    · subst hc; decide
    · exact hr c hc
    · exact hlit c hc
  have hhostne : aliyunHost s ≠ [] := by unfold aliyunHost; simp
  have hget : getUrl s signedUrl (c0 :: k') = "https://".toList ++ aliyunHost s ++
      '/' :: joinSep ['/']
        ((splitP (fun c => c = '/') (c0 :: k')).map encodeURIComponent) := by
    unfold getUrl
    rw [if_pos hpub]
    rfl
  have hdot2 : ∀ seg ∈ ((c0 :: s1) :: ss1 : List (List Char)),
      seg ≠ ['.'] ∧ seg ≠ ['.', '.'] := by
    rw [← hsegshape]
    exact hseg
  rw [hget, hsegshape, parseKey_of_public (aliyunHost s) ((c0 :: s1) :: ss1)
    hhostchars hhostne hdot2 c0 s1 ss1 rfl hc0, ← hsegshape,
    joinSep_splitP_eq '/' (c0 :: k')]

/-- Witness for C4's amended statement at a realistic configuration. -/
theorem c4_roundtrip_witness :
    parseKeyFromUrl (getUrl
        { accessKeyId := "k".toList, accessKeySecret := "s".toList,
          bucket := "mybucket".toList, region := "oss-cn-beijing".toList,
          prefixField := "img".toList, usePublicUrl := true }
        (fun _ => []) "img/1700.png".toList) = "img/1700.png".toList :=
  c4_roundtrip _ (fun _ => []) "img/1700.png".toList rfl (by decide) (by decide)
    (by decide) (by decide) (by decide)
